import Mathlib

/-!
Shallow embedding of the game-agnostic MCCFR solver stack of the
PokerBots2024 repository, together with theorems settling the frozen
claims about it.  Floating-point (`f32`) arithmetic in the source is
modelled by exact rational arithmetic `ℚ`; machine integers (`u64`,
`u128`) are modelled by `ℕ` with explicit `% 2^w` where overflow can
matter.  `Vec<T>` is modelled by `List`, `DashMap` by a function into
`Option`, and panicking code paths by `Option`-returning functions.
-/

/-! ### Categorical distributions (src/distribution.rs) -/

/-- Embedding of `Categorical::new_normalized` (distribution.rs:54):
divides every weight by the sum of the weights.  Only the probability
vector is modelled; the parallel item vector is carried separately
where needed. -/
def new_normalized (ps : List ℚ) : List ℚ :=
  let s := ps.sum
  ps.map (fun p => p / s)

/-- Embedding of `Categorical::with_mask` (distribution.rs:79): zero the
probabilities where the mask is false; if all surviving entries are
below `1e-4`, replace them by the indicator of the mask; finally
renormalize. -/
def with_mask (ps : List ℚ) (mask : List Bool) : List ℚ :=
  let masked := (ps.zip mask).map (fun p => if p.2 then p.1 else 0)
  let ps2 := if masked.all (fun a => a < 1 / 10000)
    then mask.map (fun m => if m then (1 : ℚ) else 0)
    else masked
  new_normalized ps2

/-- The uniform distribution over the true positions of a mask,
with probability `1/|mask|` on each true index and `0` elsewhere. -/
def uniform_over_mask (mask : List Bool) : List ℚ :=
  mask.map (fun m => if m then 1 / (mask.count true : ℚ) else 0)

/-! ### Regret matching and average sampling (src/algorithm/mccfr.rs) -/

/-- The masked positive part of a regret vector: `max(R[i],0)` where the
mask is true and `0` elsewhere, exactly the `regp` iterator built inside
`regret_matching` (mccfr.rs:263-264). -/
def masked_positive (reg : List ℚ) (mask : List Bool) : List ℚ :=
  ((reg.map (fun v => if 0 ≤ v then v else 0)).zip mask).map
    (fun p => if p.2 then p.1 else 0)

/-- Embedding of `regret_matching` (mccfr.rs:262-276): normalize the
masked positive regrets when their sum is positive, otherwise return
`1/len` at every index of the regret vector. -/
def regret_matching (reg : List ℚ) (mask : List Bool) : List ℚ :=
  let regp := masked_positive reg mask
  let s := regp.sum
  let l := reg.length
  if 0 < s then regp.map (fun v => v / s)
  else List.replicate l (1 / (l : ℚ))

/-- Embedding of `average_sampling` (mccfr.rs:251-259): per-action
sampling probabilities `max(ε, (b + t·π[i]) / (b + ∑π))`. -/
def average_sampling (policy : List ℚ) (e b t : ℚ) : List ℚ :=
  let denominator := policy.sum + b
  policy.map (fun s => max ((b + t * s) / denominator) e)

/-! ### Regret/policy store (src/game_logic/strategy.rs) -/

/-- A `CondensedInfoSet` is a `u64` key; modelled as `ℕ`. -/
abbrev CondensedInfoSet := ℕ

/-- Embedding of `RegretStrategy` (strategy.rs:19): two maps from info
key to the cumulative strategy vector / cumulative regret vector. -/
structure RegretStrategy where
  policy_map : CondensedInfoSet → Option (List ℚ)
  regret_map : CondensedInfoSet → Option (List ℚ)

/-- The empty store, `RegretStrategy::default` (strategy.rs:26). -/
def RegretStrategy.default : RegretStrategy :=
  ⟨fun _ => none, fun _ => none⟩

/-- Rust's `for (ve, de) in val.iter_mut().zip(d) { *ve += de }`:
the common prefix is added pointwise and the tail of `val` beyond
`d.length` is left unchanged. -/
def add_assign_zip (val d : List ℚ) : List ℚ :=
  List.zipWith (fun a b => a + b) val d ++ val.drop d.length

/-- Embedding of `RegretStrategy::regrets` (strategy.rs:37). -/
def RegretStrategy.regrets (s : RegretStrategy) (k : CondensedInfoSet) :
    Option (List ℚ) := s.regret_map k

/-- Embedding of `RegretStrategy::policy` (strategy.rs:42). -/
def RegretStrategy.policy (s : RegretStrategy) (k : CondensedInfoSet) :
    Option (List ℚ) := s.policy_map k

/-- Embedding of `RegretStrategy::update` (strategy.rs:71-99): take the
reference length from `d_reg.or(d_strat)` (panic — `none` — if both are
absent); for the strategy delta, create the entry as `vec![0.0; len]`
when missing, panic when `len != d.len()`, then add componentwise; for
the regret delta, create the missing entry likewise and add with no
length check. -/
def RegretStrategy.update (s : RegretStrategy) (info_set : CondensedInfoSet)
    (d_reg d_strat : Option (List ℚ)) : Option RegretStrategy :=
  match d_reg.or d_strat with
  | none => none
  | some d0 =>
    let len := d0.length
    let step1 : Option RegretStrategy :=
      match d_strat with
      | none => some s
      | some d =>
        let val := (s.policy_map info_set).getD (List.replicate len 0)
        if len ≠ d.length then none
        else some { s with policy_map :=
          fun k => if k = info_set then some (add_assign_zip val d)
                   else s.policy_map k }
    match step1 with
    | none => none
    | some s1 =>
      match d_reg with
      | none => some s1
      | some d =>
        let val := (s1.regret_map info_set).getD (List.replicate len 0)
        some { s1 with regret_map :=
          fun k => if k = info_set then some (add_assign_zip val d)
                   else s1.regret_map k }

/-! ### Condensed information sets (src/game_logic/visibility.rs) -/

/-- The mixed radix `MAX_ACTIONS` (visibility.rs:11). -/
def MAX_ACTIONS : ℕ := 200

/-- The idealised (unbounded-integer) packing of a history: start from
`1` and fold `key = key*200 + s` over the symbols from last to first. -/
def condense_nat (h : List ℕ) : ℕ :=
  h.foldr (fun action acc => acc * MAX_ACTIONS + action) 1

/-- Embedding of `History::into_condensed` (visibility.rs:13-20) on
`u64` arithmetic: the same fold with each step reduced `% 2^64`. -/
def into_condensed (h : List ℕ) : ℕ :=
  h.foldr (fun action acc => (acc * MAX_ACTIONS % 2 ^ 64 + action) % 2 ^ 64) 1

/-- Embedding of `From<CondensedInfoSet> for History`
(visibility.rs:23-34): repeatedly emit `condensed % 200` and divide by
`200` while `condensed > 1`. -/
def from_condensed (condensed : ℕ) : List ℕ :=
  if 1 < condensed then
    condensed % MAX_ACTIONS :: from_condensed (condensed / MAX_ACTIONS)
  else []
decreasing_by exact Nat.div_lt_self (Nat.lt_trans Nat.zero_lt_one ‹1 < condensed›) (by norm_num [MAX_ACTIONS])

/-! ### Observation tracker (src/game_logic/visibility.rs) -/

/-- `NUM_REGULAR_PLAYERS` (constants.rs:4). -/
def NUM_REGULAR_PLAYERS : ℕ := 2

/-- Embedding of `Information` (visibility.rs:152): an action (already
reduced to its `ActionIndex`), a feature vector (features reduced to
their indices), or a discard. -/
inductive Information where
  | action (a : ℕ)
  | features (v : List ℕ)
  | discard

/-- Embedding of `Observation` (visibility.rs:161). -/
inductive Observation where
  | publicInfo (info : Information)
  | privateInfo (info : Information)
  | shared (info : Information) (players : List ℕ)

/-- Embedding of `ObservationTracker` (visibility.rs:37): per player an
action-index history and an optional feature vector. -/
structure ObservationTracker where
  player_info_sets : List (List ℕ)
  player_feature_sets : List (Option (List ℕ))

/-- Fresh tracker, `ObservationTracker::new` (visibility.rs:168). -/
def ObservationTracker.new : ObservationTracker :=
  ⟨List.replicate NUM_REGULAR_PLAYERS [], List.replicate NUM_REGULAR_PLAYERS none⟩

/-- Push an action index onto player `i`'s history
(`self.player_info_sets[player].push(..)`). -/
def push_info (l : List (List ℕ)) (i a : ℕ) : List (List ℕ) :=
  l.set i (l.getD i [] ++ [a])

/-- Embedding of `ObservationTracker::observe` (visibility.rs:194-242). -/
def ObservationTracker.observe (t : ObservationTracker) (obs : Observation)
    (active_player_index : Option ℕ) : ObservationTracker :=
  match obs with
  | .publicInfo info =>
    match info with
    | .action a =>
      { t with player_info_sets :=
          ((List.range NUM_REGULAR_PLAYERS).foldl (fun l p => push_info l p a)
            t.player_info_sets) }
    | .features v =>
      { t with player_feature_sets :=
          ((List.range NUM_REGULAR_PLAYERS).foldl (fun l p => l.set p (some v))
            t.player_feature_sets) }
    | .discard => t
  | .privateInfo info =>
    match info with
    | .action a =>
      match active_player_index with
      | some player_index =>
        { t with player_info_sets := push_info t.player_info_sets player_index a }
      | none => t
    | .features v =>
      match active_player_index with
      | some player_index =>
        { t with player_feature_sets :=
            t.player_feature_sets.set player_index (some v) }
      | none => t
    | .discard => t
  | .shared info players =>
    match info with
    | .action a =>
      { t with player_info_sets :=
          (players.foldl (fun l p => push_info l p a) t.player_info_sets) }
    | .features v =>
      { t with player_feature_sets :=
          (players.foldl (fun l p => l.set p (some v)) t.player_feature_sets) }
    | .discard => t

/-! ### Parallel driver (src/algorithm/mccfr_parallel.rs) -/

/-- The fixed batch size of `MCCFRParallel::run_iterations`
(mccfr_parallel.rs:40). -/
def batch_size : ℕ := 1000

/-- Add one to entry `i` of a vector: `thread_iters[i] += 1`. -/
def bump (v : List ℕ) (i : ℕ) : List ℕ :=
  v.set i (v.getD i 0 + 1)

/-- Per-batch thread iteration counts (mccfr_parallel.rs:48-51):
`vec![iterations / threads; threads]`, then `+1` on the first
`iterations % threads` entries. -/
def thread_iters (iterations threads : ℕ) : List ℕ :=
  (List.range (iterations % threads)).foldl bump
    (List.replicate threads (iterations / threads))

/-- Total number of training iterations executed by
`MCCFRParallel::run_iterations` (mccfr_parallel.rs:37-73): the driver
runs `iterations / batch_size` batches and in each batch every worker
`i` runs `thread_iters[i]` iterations. -/
def run_iterations_total (iterations threads : ℕ) : ℕ :=
  (List.range (iterations / batch_size)).foldl
    (fun acc _ => acc + (thread_iters batch_size threads).sum) 0

/-! ### Blueprint codec (src/game_logic/strategy/blueprint.rs) -/

/-- `MAX_POLICY_LENGTH` (blueprint.rs:22). -/
def MAX_POLICY_LENGTH : ℕ := 90

/-- `MAX_VALUE_SIZE_BITS` (blueprint.rs:24). -/
def MAX_VALUE_SIZE_BITS : ℕ := 10

/-- `CHOSEN_COMPRESSION_BITS` (blueprint.rs:28). -/
def CHOSEN_COMPRESSION_BITS : ℕ := 128

/-- `MAX_FIT = CHOSEN_COMPRESSION_BITS / MAX_VALUE_SIZE_BITS`
(blueprint.rs:30): entries per 128-bit word. -/
def MAX_FIT : ℕ := CHOSEN_COMPRESSION_BITS / MAX_VALUE_SIZE_BITS

/-- `ARRAY_SIZE = MAX_POLICY_LENGTH / MAX_FIT` (blueprint.rs:32). -/
def ARRAY_SIZE : ℕ := MAX_POLICY_LENGTH / MAX_FIT

/-- Embedding of `compress` (blueprint.rs:154): `(value * 999.0) as
u128`, i.e. the integer part of `v*999`, saturated at `0` from below. -/
def compress (value : ℚ) : ℕ := (⌊value * 999⌋).toNat

/-- Embedding of `decompress` (blueprint.rs:159): `value as f32 / 999.0`. -/
def decompress (value : ℕ) : ℚ := (value : ℚ) / 999

/-- Rust's `slice::chunks(n)`: split a list into consecutive chunks of
`n` elements, the last one possibly shorter; an empty list yields no
chunks. -/
def chunks_of (n : ℕ) (l : List ℚ) : List (List ℚ) :=
  if h : l = [] ∨ n = 0 then []
  else l.take n :: chunks_of n (l.drop n)
termination_by l.length
decreasing_by
  simp only [not_or] at h
  have h1 : 0 < l.length := List.length_pos.mpr h.1
  have h2 : 0 < n := Nat.pos_of_ne_zero h.2
  have h3 : (l.drop n).length = l.length - n := List.length_drop n l
  omega

/-- Pack one chunk into a `u128` word (blueprint.rs:168-173): iterate
the chunk in reverse, each step `total = total*1000 + compress(value)`,
on `u128` arithmetic (`% 2^128`). -/
def pack_chunk (c : List ℚ) : ℕ :=
  c.foldr (fun value total => (total * 1000 % 2 ^ 128 + compress value) % 2 ^ 128) 0

/-- The same packing on unbounded integers (no `% 2^128`). -/
def pack_chunk_nat (c : List ℚ) : ℕ :=
  c.foldr (fun value total => total * 1000 + compress value) 0

/-- The indexed write loop of `compress_policy` (blueprint.rs:167-175):
`result[i] = pack_chunk(chunk_i)` for the `i`-th chunk, failing (index
out of bounds panic) when `i` reaches the array length with chunks
still remaining. -/
def write_chunks : List (List ℚ) → ℕ → List ℕ → Option (List ℕ)
  | [], _, result => some result
  | c :: cs, i, result =>
    if i < result.length then write_chunks cs (i + 1) (result.set i (pack_chunk c))
    else none

/-- Embedding of `compress_policy` (blueprint.rs:165-177): write the
packed chunks of the policy into a `[0u128; ARRAY_SIZE]` array. -/
def compress_policy (policy : List ℚ) : Option (List ℕ) :=
  write_chunks (chunks_of MAX_FIT policy) 0 (List.replicate ARRAY_SIZE 0)

/-- The inner digit extraction of `decompress_policy`: `MAX_FIT` rounds
of `chunk % 1000` then `chunk /= 1000`. -/
def unpack_digits : ℕ → ℕ → List ℕ
  | 0, _ => []
  | fuel + 1, w => w % 1000 :: unpack_digits fuel (w / 1000)

/-- Decode one word into `MAX_FIT` probabilities. -/
def unpack_word (w : ℕ) : List ℚ :=
  (unpack_digits MAX_FIT w).map decompress

/-- Embedding of `decompress_policy` (blueprint.rs:179-190): decode each
word of the condensed array in order. -/
def decompress_policy (policy : List ℕ) : List ℚ :=
  policy.flatMap unpack_word

/-! ### The AS-MCCFR iteration (src/algorithm/mccfr.rs, run_averaging_iteration) -/

/-- Embedding of `ActivePlayer` (game_logic/state.rs plus the `Marker`
variant used by mccfr.rs:108 and implementations/auction.rs; the
variant's declaration is in a revision of `state.rs` not present in the
tree, modelled from the spec: a synthetic node with exactly one
outgoing action).  Actions are identified with their `ActionIndex`
(the solver observes actions only through `index()` and equality). -/
inductive ActivePlayerT where
  | terminal (utilities : List ℚ)
  | chance (dist : List (ℚ × ℕ))
  | marker (action : ℕ)
  | player (player_num : ℕ) (actions : List ℕ)

/-- The game/mapper environment the iterator runs against: the `Game`
wrapper's `active_player`, `play` and `get_information_set`, the
installed `GameMapper`, and `A::max_index()`. -/
structure GameSpec (σ : Type) where
  active_player : σ → ActivePlayerT
  play : σ → ℕ → σ
  info_set : σ → ℕ → CondensedInfoSet
  map_actions : List ℕ → ℕ → List ℕ
  map_and_index : ℕ → ℕ → ℕ → ℕ × ℕ
  max_index : ℕ

/-- Randomness is modelled as two streams: category-sample indices and
`gen_range(0.0, 1.0)` draws. -/
structure Rng where
  idxs : List ℕ
  unifs : List ℚ

/-- Draw a categorical sample index (reduced into range `< n`). -/
def next_index (r : Rng) (n : ℕ) : ℕ × Rng :=
  (r.idxs.headD 0 % n, ⟨r.idxs.tail, r.unifs⟩)

/-- Draw one `U[0,1)` value. -/
def next_unif (r : Rng) : ℚ × Rng :=
  (r.unifs.headD 0, ⟨r.idxs, r.unifs.tail⟩)

/-- The baseline `counter_factual_estimation` (mccfr.rs:202-206):
`∑ regret_updates[i] · regrets[i]`. -/
def counter_factual_estimation (regret_updates regrets : List ℚ) : ℚ :=
  ((regret_updates.zip regrets).map (fun p => p.1 * p.2)).sum

/-- `update_with_cfr` (mccfr.rs:208-211): subtract the baseline from
every sampled return. -/
def update_with_cfr (regret_updates regrets : List ℚ) : List ℚ :=
  regret_updates.map (fun a => a - counter_factual_estimation regret_updates regrets)

/-- `dropped_non_actions` (mccfr.rs:213-217): zero the regret delta on
indices outside the mask. -/
def dropped_non_actions (regret_updates regrets : List ℚ) (mask : List Bool) : List ℚ :=
  ((update_with_cfr regret_updates regrets).zip mask).map
    (fun p => if p.2 then p.1 else 0)

/-- The per-action sampling loop of the updated-player branch
(mccfr.rs:176-199): walk the enumerated sampling probabilities; outside
the mask push `0`; otherwise draw `u`, and when `u < probability`
branch into the child (`step`) with `q' = q · min(probability, 1)` and
record the returned value, else push `0`. -/
def sample_loop (step : ℕ → ℚ → Rng → List RegretStrategy →
      Option (ℚ × List RegretStrategy × Rng)) (q : ℚ) :
    List (ℕ × ℚ) → List Bool → Rng → List RegretStrategy →
      Option (List ℚ × List RegretStrategy × Rng)
  | [], _, rng, strats => some ([], strats, rng)
  | (index, probability) :: rest, mask, rng, strats =>
    if mask.getD index false then
      let u := next_unif rng
      if u.1 < probability then
        match step index (q * min probability 1) u.2 strats with
        | none => none
        | some (value, strats2, rng2) =>
          match sample_loop step q rest mask rng2 strats2 with
          | none => none
          | some (vs, st, r) => some (value :: vs, st, r)
      else
        match sample_loop step q rest mask u.2 strats with
        | none => none
        | some (vs, st, r) => some ((0 : ℚ) :: vs, st, r)
    else
      match sample_loop step q rest mask rng strats with
      | none => none
      | some (vs, st, r) => some ((0 : ℚ) :: vs, st, r)

/-- The updated-player branch of `run_averaging_iteration`
(mccfr.rs:162-243): ensure the policy entry exists (zero-init), read
it, compute the average-sampling probabilities, run the sampling loop,
form the baseline and the masked regret delta, write the regret delta
to the store and return the baseline. -/
def updated_player_branch (step : ℕ → ℚ → Rng → List RegretStrategy →
      Option (ℚ × List RegretStrategy × Rng))
    (e b t : ℚ) (pnum : ℕ) (q : ℚ) (M : ℕ) (mask : List Bool)
    (history : CondensedInfoSet) (regrets : List ℚ)
    (rng : Rng) (strats : List RegretStrategy) :
    Option (ℚ × List RegretStrategy × Rng) :=
  let strat := strats.getD pnum RegretStrategy.default
  let ensured : Option (List RegretStrategy) :=
    match strat.policy history with
    | some _ => some strats
    | none =>
      let zeroes := List.replicate M (0 : ℚ)
      match strat.update history none (some zeroes) with
      | none => none
      | some s2 => some (strats.set pnum s2)
  match ensured with
  | none => none
  | some strats1 =>
    match (strats1.getD pnum RegretStrategy.default).policy history with
    | none => none
    | some policy =>
      let sampling_values := average_sampling policy e b t
      match sample_loop step q sampling_values.enum mask rng strats1 with
      | none => none
      | some (regret_updates, strats2, rng2) =>
        let cfe := counter_factual_estimation regret_updates regrets
        let dropped := dropped_non_actions regret_updates regrets mask
        let strat2 := strats2.getD pnum RegretStrategy.default
        match strat2.update history (some dropped) none with
        | none => none
        | some strat3 => some (cfe, strats2.set pnum strat3, rng2)

/-- Embedding of `MCCFR::run_averaging_iteration` (mccfr.rs:84-246) as
a fuel-indexed function (the Rust recursion is bounded by the game's
depth; `none` models both fuel exhaustion and panics). -/
def run_averaging_iteration {σ : Type} (G : GameSpec σ) (e b t : ℚ) :
    ℕ → σ → ℕ → ℕ → ℚ → Rng → List RegretStrategy →
      Option (ℚ × List RegretStrategy × Rng)
  | 0, _, _, _, _, _, _ => none
  | fuel + 1, s, updated_player, depth, q, rng, strats =>
    match G.active_player s with
    | .terminal utilities =>
      if updated_player < utilities.length then
        some (utilities.getD updated_player 0 / q, strats, rng)
      else none
    | .chance dist =>
      if dist.length = 0 then none
      else
        let j := next_index rng dist.length
        let pair := G.map_and_index (dist.getD j.1 (0, 0)).2 depth j.1
        run_averaging_iteration G e b t fuel (G.play s pair.1) updated_player
          (depth + 1) q j.2 strats
    | .marker action =>
      run_averaging_iteration G e b t fuel (G.play s action) updated_player
        (depth + 1) q rng strats
    | .player pn acts =>
      let actions := G.map_actions acts depth
      let M := G.max_index
      let mask := (List.range M).map (fun i => actions.contains i)
      let history := G.info_set s pn
      let strat := strats.getD pn RegretStrategy.default
      let regrets := match strat.regrets history with
        | some r => regret_matching r mask
        | none => List.replicate M (1 / (M : ℚ))
      if pn ≠ updated_player then
        let regrets2 := regrets.map (fun r => r / q)
        match strat.update history none (some regrets2) with
        | none => none
        | some strat2 =>
          let strats2 := strats.set pn strat2
          let dist := with_mask (new_normalized regrets2) mask
          let j := next_index rng dist.length
          if mask.getD j.1 false then
            run_averaging_iteration G e b t fuel (G.play s j.1) updated_player
              (depth + 1) q j.2 strats2
          else none
      else
        updated_player_branch
          (fun index q2 rng2 strats2 =>
            run_averaging_iteration G e b t fuel (G.play s index) updated_player
              (depth + 1) q2 rng2 strats2)
          e b t pn q M mask history regrets rng strats

/-! ### Concrete instances used by witnesses and counterexamples -/

/-- A tiny concrete game used to instantiate the traversal theorems: a
single marker node followed by a terminal node. -/
def demo_marker : GameSpec ℕ where
  active_player := fun s => if s = 0 then .marker 7 else .terminal [1, 0]
  play := fun s a => s + a + 1
  info_set := fun _ _ => 0
  map_actions := fun acts _ => acts
  map_and_index := fun a _ j => (a, j)
  max_index := 2

/-- A one-decision game: the root is a player node for player `0` with
the single legal action `0` and information set `5`; playing it reaches
the terminal node with utilities `[1, 0]`. -/
def demo_line : GameSpec ℕ where
  active_player := fun s => if s = 0 then .player 0 [0] else .terminal [1, 0]
  play := fun s a => s + a + 1
  info_set := fun _ _ => 5
  map_actions := fun acts _ => acts
  map_and_index := fun a _ j => (a, j)
  max_index := 2

/-- The child evaluator used for the C2 witness: every sampled action
immediately returns the value `1` with the store and randomness
untouched. -/
def demo_step : ℕ → ℚ → Rng → List RegretStrategy →
    Option (ℚ × List RegretStrategy × Rng) :=
  fun _ _ rng2 strats2 => some (1, strats2, rng2)

/-! ### Helper lemmas -/

theorem sum_map_div (l : List ℚ) (s : ℚ) :
    (l.map (fun v => v / s)).sum = l.sum / s := by
  induction l with
  | nil => simp
  | cons a t ih => simp [ih, add_div]

theorem masked_positive_length (reg : List ℚ) (mask : List Bool)
    (hlen : mask.length = reg.length) :
    (masked_positive reg mask).length = reg.length := by
  simp [masked_positive, hlen]

theorem masked_positive_nonneg (reg : List ℚ) (mask : List Bool) :
    ∀ x ∈ masked_positive reg mask, 0 ≤ x := by
  intro x hx
  simp only [masked_positive, List.mem_map] at hx
  obtain ⟨⟨a, m⟩, hmem, rfl⟩ := hx
  by_cases hm : m
  · have ha : a ∈ reg.map (fun v => if 0 ≤ v then v else 0) :=
      (List.of_mem_zip hmem).1
    simp only [List.mem_map] at ha
    obtain ⟨v, _, rfl⟩ := ha
    by_cases hv : 0 ≤ v <;> simp [hm, hv]
  · simp [hm]

theorem masked_positive_of_mask_false (reg : List ℚ) (mask : List Bool)
    (i : ℕ) (hi : i < mask.length) (hm : mask[i] = false)
    (h2 : i < (masked_positive reg mask).length) :
    (masked_positive reg mask).get ⟨i, h2⟩ = 0 := by
  simp only [List.get_eq_getElem, masked_positive] at h2 ⊢
  rw [List.getElem_map, List.getElem_zip, hm]
  simp

/-! ### Claim C1 — regret matching -/

/-- C1 counterexample: on the all-zero regret vector with mask
`[true, false]` the code returns `[1/2, 1/2]`, not the claimed uniform
distribution over the mask `[1, 0]`: the mask-false index receives
probability `1/2`, not `0`. -/
theorem C1_counterexample :
    regret_matching [0, 0] [true, false] = [1/2, 1/2] ∧
    regret_matching [0, 0] [true, false] ≠ [1, 0] := by
  constructor
  · norm_num [regret_matching, masked_positive, List.replicate]
  · norm_num [regret_matching, masked_positive, List.replicate]

/-- C1 (amended): `regret_matching(R, mask)` returns the masked
positive part of `R` normalized by its sum when that sum is positive
(so the result sums to `1` and vanishes on mask-false indices); when
the sum of masked positive regrets is zero it returns the uniform
distribution over all `len(R)` indices, `1/len(R)` everywhere,
regardless of the mask. -/
theorem C1_regret_matching_cases (reg : List ℚ) (mask : List Bool)
    (hlen : mask.length = reg.length) :
    (0 < (masked_positive reg mask).sum →
      regret_matching reg mask =
        (masked_positive reg mask).map
          (fun v => v / (masked_positive reg mask).sum) ∧
      (regret_matching reg mask).sum = 1 ∧
      ∀ i, ∀ hi : i < mask.length, mask[i] = false →
        (regret_matching reg mask).getD i 0 = 0) ∧
    ((masked_positive reg mask).sum ≤ 0 →
      regret_matching reg mask = List.replicate reg.length (1 / (reg.length : ℚ))) := by
  constructor
  · intro hs
    have heq : regret_matching reg mask =
        (masked_positive reg mask).map
          (fun v => v / (masked_positive reg mask).sum) := by
      simp only [regret_matching, if_pos hs]
    refine ⟨heq, ?_, ?_⟩
    · rw [heq, sum_map_div, div_self (ne_of_gt hs)]
    · intro i hi hm
      have hi' : i < (regret_matching reg mask).length := by
        rw [heq]
        simp only [List.length_map]
        rw [masked_positive_length reg mask hlen]; omega
      rw [List.getD_eq_getElem _ _ hi']
      have hmp : i < (masked_positive reg mask).length := by
        rw [masked_positive_length reg mask hlen]; omega
      have hzero := masked_positive_of_mask_false reg mask i hi hm hmp
      simp only [List.get_eq_getElem] at hzero
      simp only [heq, List.getElem_map, hzero]
      simp
  · intro hs
    simp only [regret_matching, if_neg (not_lt.mpr hs)]

/-- C1 witness: instantiation of the amended theorem at
`R = [3, 1]`, `mask = [true, false]`. -/
theorem C1_regret_matching_cases_witness :
    (0 < (masked_positive [3, 1] [true, false]).sum →
      regret_matching [3, 1] [true, false] =
        (masked_positive [3, 1] [true, false]).map
          (fun v => v / (masked_positive [3, 1] [true, false]).sum) ∧
      (regret_matching [3, 1] [true, false]).sum = 1 ∧
      ∀ i, ∀ hi : i < ([true, false] : List Bool).length,
        ([true, false] : List Bool)[i] = false →
        (regret_matching [3, 1] [true, false]).getD i 0 = 0) ∧
    ((masked_positive [3, 1] [true, false]).sum ≤ 0 →
      regret_matching [3, 1] [true, false] =
        List.replicate ([3, 1] : List ℚ).length (1 / (([3, 1] : List ℚ).length : ℚ))) :=
  C1_regret_matching_cases [3, 1] [true, false] (by simp)

/-! ### Claim C5 — Categorical::with_mask -/

theorem sum_map_ite_count (mask : List Bool) (c : ℚ) :
    (mask.map (fun m => if m then c else 0)).sum = (mask.count true : ℚ) * c := by
  induction mask with
  | nil => simp
  | cons b t ih =>
    cases b <;> simp [ih, List.count_cons] <;> push_cast <;> ring

theorem masked_probs_nonneg (ps : List ℚ) (mask : List Bool)
    (hnn : ∀ p ∈ ps, 0 ≤ p) :
    ∀ x ∈ (ps.zip mask).map (fun p => if p.2 then p.1 else 0), 0 ≤ x := by
  intro x hx
  simp only [List.mem_map] at hx
  obtain ⟨⟨a, m⟩, hmem, rfl⟩ := hx
  by_cases hm : m
  · exact hm ▸ (by simpa using hnn a (List.of_mem_zip hmem).1)
  · simp [hm]

theorem masked_probs_of_mask_false (ps : List ℚ) (mask : List Bool)
    (i : ℕ) (hi : i < mask.length) (hm : mask[i] = false)
    (h2 : i < ((ps.zip mask).map (fun p => if p.2 then p.1 else 0)).length) :
    ((ps.zip mask).map (fun p => if p.2 then p.1 else 0)).get ⟨i, h2⟩ = 0 := by
  simp only [List.get_eq_getElem]
  rw [List.getElem_map, List.getElem_zip, hm]
  simp

/-- C5 counterexample: the claim quantifies over every boolean mask,
but on an all-false mask the code normalizes the all-zero vector and
returns `[0]`, whose probabilities do not sum to `1`. -/
theorem C5_counterexample :
    with_mask [1] [false] = [0] ∧ ([(0 : ℚ)]).sum ≠ 1 := by
  constructor
  · norm_num [with_mask, new_normalized]
  · norm_num

/-- C5 (amended): for every Categorical distribution (probabilities
nonnegative) and boolean mask of equal length with at least one true
entry, `with_mask` returns a vector summing to `1` that is zero
wherever the mask is false, and when all probabilities remaining after
masking are below `1e-6` it returns the uniform distribution over the
mask. -/
theorem C5_with_mask_spec (ps : List ℚ) (mask : List Bool)
    (hnn : ∀ p ∈ ps, 0 ≤ p) (hlen : mask.length = ps.length)
    (hmask : true ∈ mask) :
    (with_mask ps mask).sum = 1 ∧
    (∀ i, ∀ hi : i < mask.length, mask[i] = false →
      (with_mask ps mask).getD i 0 = 0) ∧
    (((ps.zip mask).map (fun p => if p.2 then p.1 else 0)).all
        (fun a => decide (a < 1/1000000)) →
      with_mask ps mask = uniform_over_mask mask) := by
  have hk : 0 < mask.count true := List.count_pos_iff_mem.mpr hmask
  have hkq : ((mask.count true : ℚ)) ≠ 0 := by positivity
  by_cases hall :
      ((ps.zip mask).map (fun p => if p.2 then p.1 else 0)).all
        (fun a => decide (a < 1/10000))
  · -- uniform fallback branch
    have heq : with_mask ps mask = uniform_over_mask mask := by
      simp only [with_mask, new_normalized]
      rw [if_pos (by simpa using hall)]
      rw [sum_map_ite_count mask 1, mul_one, List.map_map, uniform_over_mask]
      refine List.map_congr_left fun m _ => ?_
      cases m <;> simp
    refine ⟨?_, ?_, fun _ => heq⟩
    · rw [heq, uniform_over_mask, sum_map_ite_count mask]
      field_simp
    · intro i hi hm
      have hi' : i < (with_mask ps mask).length := by
        rw [heq]; simpa [uniform_over_mask] using hi
      rw [List.getD_eq_getElem _ _ hi']
      simp only [heq, uniform_over_mask, List.getElem_map, hm]
      simp
  · -- renormalized masked branch
    have heq : with_mask ps mask =
        new_normalized ((ps.zip mask).map (fun p => if p.2 then p.1 else 0)) := by
      simp only [with_mask]
      rw [if_neg (by simpa using hall)]
    have hex : ∃ a ∈ (ps.zip mask).map (fun p => if p.2 then p.1 else 0),
        1/10000 ≤ a := by
      by_contra hc
      push_neg at hc
      exact hall (by simpa [List.all_eq_true] using fun x hx => hc x hx)
    obtain ⟨a, ha, ha4⟩ := hex
    have hspos : 0 < ((ps.zip mask).map (fun p => if p.2 then p.1 else 0)).sum := by
      have h1 : a ≤ ((ps.zip mask).map (fun p => if p.2 then p.1 else 0)).sum :=
        List.single_le_sum (masked_probs_nonneg ps mask hnn) a ha
      have h2 : (0:ℚ) < 1/10000 := by norm_num
      linarith
    refine ⟨?_, ?_, ?_⟩
    · rw [heq, new_normalized, sum_map_div, div_self (ne_of_gt hspos)]
    · intro i hi hm
      have hlen2 : i < (((ps.zip mask).map
          (fun p => if p.2 then p.1 else 0)).length) := by
        simp [hlen]; omega
      have hi' : i < (with_mask ps mask).length := by
        rw [heq]; simpa [new_normalized] using hlen2
      rw [List.getD_eq_getElem _ _ hi']
      have hzero := masked_probs_of_mask_false ps mask i hi hm hlen2
      simp only [List.get_eq_getElem] at hzero
      simp only [heq, new_normalized, List.getElem_map, hzero]
      simp
    · intro h6
      exfalso
      apply hall
      simp only [List.all_eq_true, decide_eq_true_eq] at h6 ⊢
      intro x hx
      have := h6 x hx
      linarith

/-- C5 witness: instantiation of the amended theorem at
`ps = [1/2, 1/2]`, `mask = [true, false]`. -/
theorem C5_with_mask_spec_witness :
    (with_mask [1/2, 1/2] [true, false]).sum = 1 ∧
    (∀ i, ∀ hi : i < ([true, false] : List Bool).length,
      ([true, false] : List Bool)[i] = false →
      (with_mask [1/2, 1/2] [true, false]).getD i 0 = 0) ∧
    ((([(1:ℚ)/2, 1/2].zip [true, false]).map
        (fun p => if p.2 then p.1 else 0)).all
        (fun a => decide (a < 1/1000000)) →
      with_mask [1/2, 1/2] [true, false] = uniform_over_mask [true, false]) :=
  C5_with_mask_spec [1/2, 1/2] [true, false]
    (by norm_num) (by norm_num) (by norm_num)

/-! ### Claim C10 — ObservationTracker::observe no-ops -/

/-- C10: `observe` leaves the tracker unchanged for `Discard`
information of all three observation kinds, and for `Private`
observations when the active-player index is `None`. -/
theorem C10_observe_noops (t : ObservationTracker) (active : Option ℕ) :
    t.observe (.publicInfo .discard) active = t ∧
    t.observe (.privateInfo .discard) active = t ∧
    (∀ players, t.observe (.shared .discard players) active = t) ∧
    (∀ a, t.observe (.privateInfo (.action a)) none = t) ∧
    (∀ v, t.observe (.privateInfo (.features v)) none = t) :=
  ⟨rfl, rfl, fun _ => rfl, fun _ => rfl, fun _ => rfl⟩

/-! ### Claim C4 — RegretStrategy::update -/

theorem add_assign_zip_eq_zipWith (val d : List ℚ) (h : val.length = d.length) :
    add_assign_zip val d = List.zipWith (fun a b => a + b) val d := by
  simp [add_assign_zip, h]

/-- C4: when at least one delta is present and every present delta has
the entry length `n` (as does the existing entry, when present),
`update` succeeds; a missing entry is created as the all-zero vector of
length `n`, and each stored vector becomes the old vector plus the
corresponding delta componentwise; a map whose delta is absent is left
unchanged at the key. -/
theorem C4_update_adds_componentwise (s : RegretStrategy)
    (key : CondensedInfoSet) (d_reg d_strat : Option (List ℚ)) (n : ℕ)
    (hpresent : d_reg.isSome ∨ d_strat.isSome)
    (hr : ∀ d, d_reg = some d → d.length = n)
    (hs : ∀ d, d_strat = some d → d.length = n)
    (hR0 : ∀ v, s.regret_map key = some v → v.length = n)
    (hS0 : ∀ v, s.policy_map key = some v → v.length = n) :
    (s.update key d_reg d_strat).isSome ∧
    ∀ s2, s.update key d_reg d_strat = some s2 →
      s2.regret_map key = (match d_reg with
        | some dr => some (List.zipWith (fun a b => a + b)
            ((s.regret_map key).getD (List.replicate n 0)) dr)
        | none => s.regret_map key) ∧
      s2.policy_map key = (match d_strat with
        | some ds => some (List.zipWith (fun a b => a + b)
            ((s.policy_map key).getD (List.replicate n 0)) ds)
        | none => s.policy_map key) := by
  match d_reg, d_strat with
  | none, none => simp at hpresent
  | none, some ds =>
    have hdsl : ds.length = n := hs ds rfl
    have hval : ((s.policy_map key).getD (List.replicate n 0)).length
        = ds.length := by
      cases hv : s.policy_map key with
      | none => simp [hdsl]
      | some v => simp [hv, hS0 v hv, hdsl]
    constructor
    · simp only [RegretStrategy.update, Option.or]
      rw [if_neg (by omega : ¬ ds.length ≠ ds.length)]
      rfl
    · intro s2 h2
      simp only [RegretStrategy.update, Option.or] at h2
      rw [if_neg (by omega : ¬ ds.length ≠ ds.length)] at h2
      simp only [Option.some.injEq] at h2
      subst h2
      constructor
      · simp
      · simp [add_assign_zip_eq_zipWith _ _ hval, hdsl]
  | some dr, none =>
    have hdrl : dr.length = n := hr dr rfl
    have hval : ((s.regret_map key).getD (List.replicate n 0)).length
        = dr.length := by
      cases hv : s.regret_map key with
      | none => simp [hdrl]
      | some v => simp [hv, hR0 v hv, hdrl]
    constructor
    · simp only [RegretStrategy.update, Option.or]
      rfl
    · intro s2 h2
      simp only [RegretStrategy.update, Option.or, Option.some.injEq] at h2
      subst h2
      constructor
      · simp [add_assign_zip_eq_zipWith _ _ hval, hdrl]
      · simp
  | some dr, some ds =>
    have hdrl : dr.length = n := hr dr rfl
    have hdsl : ds.length = n := hs ds rfl
    have hvalS : ((s.policy_map key).getD (List.replicate n 0)).length
        = ds.length := by
      cases hv : s.policy_map key with
      | none => simp [hdsl]
      | some v => simp [hv, hS0 v hv, hdsl]
    have hvalR : ((s.regret_map key).getD (List.replicate n 0)).length
        = dr.length := by
      cases hv : s.regret_map key with
      | none => simp [hdrl]
      | some v => simp [hv, hR0 v hv, hdrl]
    constructor
    · simp only [RegretStrategy.update, Option.or]
      rw [if_neg (by omega : ¬ dr.length ≠ ds.length)]
      rfl
    · intro s2 h2
      simp only [RegretStrategy.update, Option.or] at h2
      rw [if_neg (by omega : ¬ dr.length ≠ ds.length)] at h2
      simp only [Option.some.injEq] at h2
      subst h2
      constructor
      · simp [add_assign_zip_eq_zipWith _ _ hvalR, hdrl]
      · simp [add_assign_zip_eq_zipWith _ _ hvalS, hdrl, hdsl]

/-- C4 witness: a fresh store updated at key `7` with
`ΔR = [1, 2]`, `ΔS = [3, 4]`. -/
theorem C4_update_adds_componentwise_witness :
    (RegretStrategy.default.update 7 (some [1, 2]) (some [3, 4])).isSome ∧
    ∀ s2, RegretStrategy.default.update 7 (some [1, 2]) (some [3, 4]) = some s2 →
      s2.regret_map 7 = (match (some [(1:ℚ), 2] : Option (List ℚ)) with
        | some dr => some (List.zipWith (fun a b => a + b)
            ((RegretStrategy.default.regret_map 7).getD (List.replicate 2 0)) dr)
        | none => RegretStrategy.default.regret_map 7) ∧
      s2.policy_map 7 = (match (some [(3:ℚ), 4] : Option (List ℚ)) with
        | some ds => some (List.zipWith (fun a b => a + b)
            ((RegretStrategy.default.policy_map 7).getD (List.replicate 2 0)) ds)
        | none => RegretStrategy.default.policy_map 7) :=
  C4_update_adds_componentwise RegretStrategy.default 7
    (some [1, 2]) (some [3, 4]) 2
    (Or.inl rfl)
    (fun d hd => by cases hd; rfl)
    (fun d hd => by cases hd; rfl)
    (fun v hv => by simp [RegretStrategy.default] at hv)
    (fun v hv => by simp [RegretStrategy.default] at hv)

/-! ### Claim C3 — condense / decondense -/

theorem condense_nat_cons (a : ℕ) (t : List ℕ) :
    condense_nat (a :: t) = condense_nat t * MAX_ACTIONS + a := rfl

theorem condense_nat_pos (l : List ℕ) : 1 ≤ condense_nat l := by
  induction l with
  | nil => simp [condense_nat]
  | cons a t ih =>
    rw [condense_nat_cons]
    simp only [MAX_ACTIONS]
    have h2 : 1 * 200 ≤ condense_nat t * 200 := Nat.mul_le_mul_right 200 ih
    omega

theorem into_condensed_eq_condense_nat (l : List ℕ)
    (hfit : condense_nat l < 2 ^ 64) :
    into_condensed l = condense_nat l := by
  induction l with
  | nil => rfl
  | cons a t ih =>
    rw [condense_nat_cons] at hfit
    have htail : condense_nat t < 2 ^ 64 := by
      have h1 : 1 ≤ MAX_ACTIONS := by norm_num [MAX_ACTIONS]
      have h2 : condense_nat t * 1 ≤ condense_nat t * MAX_ACTIONS :=
        Nat.mul_le_mul_left (condense_nat t) h1
      omega
    have hmul : condense_nat t * MAX_ACTIONS < 2 ^ 64 := by omega
    show (into_condensed t * MAX_ACTIONS % 2 ^ 64 + a) % 2 ^ 64 = _
    rw [ih htail, Nat.mod_eq_of_lt hmul, Nat.mod_eq_of_lt (by omega)]
    exact (condense_nat_cons a t).symm

theorem from_condensed_condense_nat (l : List ℕ)
    (hsym : ∀ s ∈ l, s < MAX_ACTIONS) :
    from_condensed (condense_nat l) = l := by
  induction l with
  | nil =>
    rw [from_condensed]
    norm_num [condense_nat]
  | cons a t ih =>
    have ha : a < MAX_ACTIONS := hsym a (List.mem_cons_self a t)
    have hpos : 1 ≤ condense_nat t := condense_nat_pos t
    rw [condense_nat_cons]
    have hgt : 1 < condense_nat t * MAX_ACTIONS + a := by
      simp only [MAX_ACTIONS]
      have h2 : 1 * 200 ≤ condense_nat t * 200 := Nat.mul_le_mul_right 200 hpos
      omega
    rw [from_condensed, if_pos hgt]
    have hmod : (condense_nat t * MAX_ACTIONS + a) % MAX_ACTIONS = a := by
      simp only [MAX_ACTIONS] at ha ⊢
      omega
    have hdiv : (condense_nat t * MAX_ACTIONS + a) / MAX_ACTIONS = condense_nat t := by
      simp only [MAX_ACTIONS] at ha ⊢
      omega
    rw [hmod, hdiv, ih (fun s hs => hsym s (List.mem_cons_of_mem a hs))]

/-- C3: for every history whose symbols are all below the radix `200`
and whose packed key fits in 64 bits, `into_condensed` computes the
idealised mixed-radix key (`key = 1`, then `key = key*200 + s` for each
symbol from last to first, which is `condense_nat`), the decondensing
conversion recovers the history (left inverse), and the packing is
injective on such histories. -/
theorem C3_condense_roundtrip (h : List ℕ) (hsym : ∀ s ∈ h, s < MAX_ACTIONS)
    (hfit : condense_nat h < 2 ^ 64) :
    into_condensed h = condense_nat h ∧
    from_condensed (into_condensed h) = h ∧
    ∀ h2, (∀ s ∈ h2, s < MAX_ACTIONS) → condense_nat h2 < 2 ^ 64 →
      into_condensed h2 = into_condensed h → h2 = h := by
  have he := into_condensed_eq_condense_nat h hfit
  refine ⟨he, ?_, ?_⟩
  · rw [he]
    exact from_condensed_condense_nat h hsym
  · intro h2 hsym2 hfit2 heq
    have he2 := into_condensed_eq_condense_nat h2 hfit2
    calc h2 = from_condensed (condense_nat h2) :=
          (from_condensed_condense_nat h2 hsym2).symm
      _ = from_condensed (condense_nat h) := by rw [← he2, heq, he]
      _ = h := from_condensed_condense_nat h hsym

/-- C3 witness: the spec's own example sequence `[3, 0, 2, 1]`. -/
theorem C3_condense_roundtrip_witness :
    into_condensed [3, 0, 2, 1] = condense_nat [3, 0, 2, 1] ∧
    from_condensed (into_condensed [3, 0, 2, 1]) = [3, 0, 2, 1] ∧
    ∀ h2, (∀ s ∈ h2, s < MAX_ACTIONS) → condense_nat h2 < 2 ^ 64 →
      into_condensed h2 = into_condensed [3, 0, 2, 1] → h2 = [3, 0, 2, 1] :=
  C3_condense_roundtrip [3, 0, 2, 1]
    (by intro s hs; simp [MAX_ACTIONS]; fin_cases hs <;> norm_num)
    (by norm_num [condense_nat, MAX_ACTIONS])

/-! ### Claim C7 — parallel driver batching -/

theorem bump_length (v : List ℕ) (i : ℕ) : (bump v i).length = v.length := by
  simp [bump]

theorem bump_sum (v : List ℕ) : ∀ i, i < v.length → (bump v i).sum = v.sum + 1 := by
  induction v with
  | nil => intro i hi; simp at hi
  | cons a t ih =>
    intro i hi
    cases i with
    | zero => simp [bump]; ring
    | succ n =>
      have hn : n < t.length := by simpa using hi
      have : bump (a :: t) (n + 1) = a :: bump t n := by
        simp [bump, List.getD_cons_succ]
      rw [this]
      simp [ih n hn]
      ring

theorem bump_getD (v : List ℕ) (i j : ℕ) (hj : j < v.length) :
    (bump v i).getD j 0 = if i = j then v.getD i 0 + 1 else v.getD j 0 := by
  have hj2 : j < (bump v i).length := by rw [bump_length]; exact hj
  rw [List.getD_eq_getElem _ _ hj2]
  simp only [bump] at hj2 ⊢
  rw [List.getElem_set]
  by_cases h : i = j
  · simp [h]
  · rw [if_neg h, if_neg h, List.getD_eq_getElem _ _ hj]

theorem foldl_bump_length (v : List ℕ) (r : ℕ) :
    ((List.range r).foldl bump v).length = v.length := by
  induction r with
  | zero => rfl
  | succ n ih =>
    rw [List.range_succ, List.foldl_append]
    simp [bump_length, ih]

theorem foldl_bump_sum (v : List ℕ) : ∀ r, r ≤ v.length →
    ((List.range r).foldl bump v).sum = v.sum + r := by
  intro r
  induction r with
  | zero => simp
  | succ n ih =>
    intro hr
    rw [List.range_succ, List.foldl_append]
    simp only [List.foldl_cons, List.foldl_nil]
    rw [bump_sum _ n (by rw [foldl_bump_length]; omega), ih (by omega)]
    ring

theorem foldl_bump_getD (v : List ℕ) : ∀ r, r ≤ v.length → ∀ i, i < v.length →
    ((List.range r).foldl bump v).getD i 0 =
      v.getD i 0 + if i < r then 1 else 0 := by
  intro r
  induction r with
  | zero => intro _ i _; simp
  | succ n ih =>
    intro hr i hi
    rw [List.range_succ, List.foldl_append]
    simp only [List.foldl_cons, List.foldl_nil]
    rw [bump_getD _ n i (by rw [foldl_bump_length]; exact hi)]
    by_cases hni : n = i
    · subst hni
      rw [if_pos rfl, ih (by omega) n hi]
      simp
    · rw [if_neg hni, ih (by omega) i hi]
      congr 1
      by_cases h2 : i < n
      · rw [if_pos h2, if_pos (by omega)]
      · rw [if_neg h2, if_neg (by omega)]

theorem foldl_add_const (S : ℕ) : ∀ n,
    (List.range n).foldl (fun acc _ => acc + S) 0 = n * S := by
  intro n
  induction n with
  | zero => simp
  | succ m ih =>
    rw [List.range_succ, List.foldl_append]
    simp only [List.foldl_cons, List.foldl_nil]
    rw [ih]
    ring

/-- C7 counterexample: `run_iterations(1500, ε)` with one worker
executes only `1500 / 1000 = 1` full batch of `1000` iterations — the
remaining `500` requested iterations are never run. -/
theorem C7_counterexample :
    run_iterations_total 1500 1 = 1000 ∧ (1000 : ℕ) ≠ 1500 := by
  constructor
  · decide
  · decide

/-- C7 (amended): `run_iterations(total_iters, ε)` executes
`(total_iters / 1000) * 1000` training iterations — exactly
`total_iters` only when `total_iters` is a multiple of the batch size
`1000`, the remainder being dropped by the integer division — and each
batch's per-worker iteration counts sum to the batch size and differ
from each other by at most one (remainder distributed round-robin). -/
theorem C7_run_iterations_batching (iterations threads : ℕ)
    (hpos : 0 < threads) :
    run_iterations_total iterations threads =
      (iterations / batch_size) * batch_size ∧
    (iterations % batch_size = 0 →
      run_iterations_total iterations threads = iterations) ∧
    (thread_iters batch_size threads).length = threads ∧
    (thread_iters batch_size threads).sum = batch_size ∧
    (∀ i j, i < threads → j < threads →
      (thread_iters batch_size threads).getD i 0 ≤
        (thread_iters batch_size threads).getD j 0 + 1) := by
  have hrlen : batch_size % threads ≤
      (List.replicate threads (batch_size / threads)).length := by
    rw [List.length_replicate]
    exact le_of_lt (Nat.mod_lt batch_size hpos)
  have hlen : (thread_iters batch_size threads).length = threads := by
    rw [thread_iters, foldl_bump_length, List.length_replicate]
  have hsum : (thread_iters batch_size threads).sum = batch_size := by
    rw [thread_iters, foldl_bump_sum _ _ hrlen, List.sum_replicate, smul_eq_mul]
    exact Nat.div_add_mod batch_size threads
  have hget : ∀ i, i < threads → (thread_iters batch_size threads).getD i 0 =
      batch_size / threads + (if i < batch_size % threads then 1 else 0) := by
    intro i hi
    rw [thread_iters, foldl_bump_getD _ _ hrlen i (by simpa using hi)]
    congr 1
    rw [List.getD_eq_getElem _ _ (by simpa using hi), List.getElem_replicate]
  refine ⟨?_, ?_, hlen, hsum, ?_⟩
  · rw [run_iterations_total]
    simp only [hsum]
    exact foldl_add_const batch_size (iterations / batch_size)
  · intro hmod
    rw [run_iterations_total]
    simp only [hsum]
    rw [foldl_add_const batch_size (iterations / batch_size)]
    exact Nat.div_mul_cancel (Nat.dvd_of_mod_eq_zero hmod)
  · intro i j hi hj
    rw [hget i hi, hget j hj]
    split_ifs <;> omega

/-- C7 witness: instantiation at `iterations = 3000`, `threads = 7`. -/
theorem C7_run_iterations_batching_witness :
    run_iterations_total 3000 7 = (3000 / batch_size) * batch_size ∧
    (3000 % batch_size = 0 → run_iterations_total 3000 7 = 3000) ∧
    (thread_iters batch_size 7).length = 7 ∧
    (thread_iters batch_size 7).sum = batch_size ∧
    (∀ i j, i < 7 → j < 7 →
      (thread_iters batch_size 7).getD i 0 ≤
        (thread_iters batch_size 7).getD j 0 + 1) :=
  C7_run_iterations_batching 3000 7 (by norm_num)

/-! ### Claims C6 and C9 — blueprint codec -/

theorem MAX_FIT_eq : MAX_FIT = 12 := rfl

theorem ARRAY_SIZE_eq : ARRAY_SIZE = 7 := rfl

theorem compress_lt_1000 (v : ℚ) (h0 : 0 ≤ v) (h1 : v ≤ 1) :
    compress v < 1000 := by
  rw [compress]
  have h999 : v * 999 ≤ 999 := by nlinarith
  have hfl : ⌊v * 999⌋ ≤ 999 := by
    have := Int.floor_le_floor (α := ℚ) h999
    simpa using this
  omega

theorem pack_chunk_nat_cons (v : ℚ) (t : List ℚ) :
    pack_chunk_nat (v :: t) = pack_chunk_nat t * 1000 + compress v := rfl

theorem pack_chunk_nat_lt (c : List ℚ) (hb : ∀ x ∈ c, compress x < 1000) :
    pack_chunk_nat c < 1000 ^ c.length := by
  induction c with
  | nil => simp [pack_chunk_nat]
  | cons v t ih =>
    rw [pack_chunk_nat_cons, List.length_cons, pow_succ]
    have h1 := ih (fun x hx => hb x (List.mem_cons_of_mem v hx))
    have h2 := hb v (List.mem_cons_self v t)
    nlinarith [h1, h2]

theorem pack_chunk_eq_nat (c : List ℚ) (hlen : c.length ≤ 12)
    (hb : ∀ x ∈ c, compress x < 1000) :
    pack_chunk c = pack_chunk_nat c := by
  induction c with
  | nil => rfl
  | cons v t ih =>
    have htb : ∀ x ∈ t, compress x < 1000 :=
      fun x hx => hb x (List.mem_cons_of_mem v hx)
    have hlt : pack_chunk_nat t < 1000 ^ t.length := pack_chunk_nat_lt t htb
    have hp : (1000:ℕ) ^ t.length ≤ 1000 ^ 11 :=
      Nat.pow_le_pow_right (by norm_num) (by simp at hlen; omega)
    have hbig : (1000:ℕ) ^ 11 * 1000 < 2 ^ 128 := by norm_num
    have h2 : compress v < 1000 := hb v (List.mem_cons_self v t)
    have hmul : pack_chunk_nat t * 1000 < 2 ^ 128 := by
      have : pack_chunk_nat t * 1000 ≤ (1000 ^ 11) * 1000 := by
        have : pack_chunk_nat t ≤ 1000 ^ 11 := by omega
        exact Nat.mul_le_mul_right 1000 this
      omega
    show (pack_chunk t * 1000 % 2 ^ 128 + compress v) % 2 ^ 128 = _
    rw [ih (by simp at hlen; omega) htb, Nat.mod_eq_of_lt hmul]
    rw [Nat.mod_eq_of_lt (by
      have h3 : pack_chunk_nat t * 1000 + 1000 ≤ 1000 ^ t.length * 1000 := by
        have := hlt
        nlinarith
      have h4 : (1000:ℕ) ^ t.length * 1000 ≤ 1000 ^ 11 * 1000 :=
        Nat.mul_le_mul_right 1000 hp
      omega)]
    rfl

theorem unpack_digits_zero : ∀ n, unpack_digits n 0 = List.replicate n 0 := by
  intro n
  induction n with
  | zero => rfl
  | succ m ih => simp [unpack_digits, ih, List.replicate_succ]

theorem unpack_digits_length : ∀ (n w : ℕ), (unpack_digits n w).length = n := by
  intro n
  induction n with
  | zero => intro w; rfl
  | succ m ih => intro w; simp [unpack_digits, ih]

theorem unpack_digits_pack : ∀ (c : List ℚ) (n : ℕ), c.length ≤ n →
    (∀ x ∈ c, compress x < 1000) →
    unpack_digits n (pack_chunk_nat c) =
      c.map compress ++ List.replicate (n - c.length) 0 := by
  intro c
  induction c with
  | nil => intro n _ _; simp [pack_chunk_nat, unpack_digits_zero]
  | cons v t ih =>
    intro n hn hb
    cases n with
    | zero => simp at hn
    | succ m =>
      have hcv : compress v < 1000 := hb v (List.mem_cons_self v t)
      have hmod : pack_chunk_nat (v :: t) % 1000 = compress v := by
        rw [pack_chunk_nat_cons]; omega
      have hdiv : pack_chunk_nat (v :: t) / 1000 = pack_chunk_nat t := by
        rw [pack_chunk_nat_cons]; omega
      show pack_chunk_nat (v :: t) % 1000 ::
          unpack_digits m (pack_chunk_nat (v :: t) / 1000) = _
      rw [hmod, hdiv,
        ih m (by simpa using hn) (fun x hx => hb x (List.mem_cons_of_mem v hx))]
      simp [Nat.succ_sub_succ]

theorem unpack_word_length (w : ℕ) : (unpack_word w).length = 12 := by
  rw [unpack_word, MAX_FIT_eq]
  simp [unpack_digits_length]

theorem unpack_word_pack (c : List ℚ) (hlen : c.length ≤ 12)
    (hb : ∀ x ∈ c, compress x < 1000) :
    unpack_word (pack_chunk c) =
      c.map (fun v => decompress (compress v)) ++
        List.replicate (12 - c.length) 0 := by
  rw [unpack_word, MAX_FIT_eq, pack_chunk_eq_nat c hlen hb,
    unpack_digits_pack c 12 hlen hb, List.map_append, List.map_map,
    List.map_replicate]
  congr 1
  simp [decompress]

theorem chunks_of_nil (n : ℕ) : chunks_of n [] = [] := by
  rw [chunks_of]; simp

theorem chunks_of_cons12 (l : List ℚ) (hl : l ≠ []) :
    chunks_of 12 l = l.take 12 :: chunks_of 12 (l.drop 12) := by
  rw [chunks_of]
  simp [hl]

theorem chunks_of_12_length : ∀ (k : ℕ) (l : List ℚ), l.length ≤ k →
    (chunks_of 12 l).length = (l.length + 11) / 12 := by
  intro k
  induction k with
  | zero =>
    intro l hl
    have : l = [] := List.length_eq_zero.mp (by omega)
    subst this
    simp [chunks_of_nil]
  | succ m ih =>
    intro l hl
    by_cases hnil : l = []
    · subst hnil; simp [chunks_of_nil]
    · rw [chunks_of_cons12 l hnil, List.length_cons,
        ih (l.drop 12) (by simp [List.length_drop]; omega)]
      have hpos : 0 < l.length := List.length_pos.mpr hnil
      rw [List.length_drop]
      omega

theorem take_append_cons (a : List ℕ) (p : ℕ) (b : List ℕ) (n : ℕ)
    (h : a.length = n) : (a ++ p :: b).take (n + 1) = a ++ [p] := by
  subst h
  induction a with
  | nil => simp
  | cons x t ih => simp [ih]

theorem drop_append_cons (a : List ℕ) (p : ℕ) (b : List ℕ) (n k : ℕ)
    (h : a.length = n) : (a ++ p :: b).drop (n + 1 + k) = b.drop k := by
  subst h
  induction a with
  | nil =>
    have h1 : ([] : List ℕ).length + 1 + k = k + 1 := by simp; omega
    rw [h1]
    simp
  | cons x t ih =>
    have h1 : (x :: t).length + 1 + k = (t.length + 1 + k) + 1 := by simp; omega
    rw [h1]
    simpa using ih

theorem write_chunks_spec : ∀ (cs : List (List ℚ)) (i : ℕ) (res : List ℕ),
    i + cs.length ≤ res.length →
    write_chunks cs i res =
      some (res.take i ++ cs.map pack_chunk ++ res.drop (i + cs.length)) := by
  intro cs
  induction cs with
  | nil =>
    intro i res _
    simp [write_chunks]
  | cons c cs2 ih =>
    intro i res h
    have hi : i < res.length := by simp at h; omega
    have hisucc : i + 1 + cs2.length ≤ (res.set i (pack_chunk c)).length := by
      simp at h ⊢; omega
    simp only [write_chunks, if_pos hi]
    rw [ih (i + 1) (res.set i (pack_chunk c)) hisucc]
    have hset : res.set i (pack_chunk c) =
        res.take i ++ pack_chunk c :: res.drop (i + 1) := by
      rw [List.set_eq_take_append_cons_drop, if_pos hi]
    have htl : (res.take i).length = i := by
      rw [List.length_take]; omega
    rw [hset, take_append_cons _ _ _ i htl,
      drop_append_cons _ _ _ i cs2.length htl, List.drop_drop]
    have harith : i + 1 + cs2.length = i + (c :: cs2).length := by
      simp; omega
    rw [harith]
    simp [List.append_assoc]

theorem write_chunks_fail : ∀ (cs : List (List ℚ)) (i : ℕ) (res : List ℕ),
    res.length < i + cs.length → cs ≠ [] → write_chunks cs i res = none := by
  intro cs
  induction cs with
  | nil => intro i res _ hne; exact absurd rfl hne
  | cons c cs2 ih =>
    intro i res h _
    by_cases hi : i < res.length
    · simp only [write_chunks, if_pos hi]
      cases cs2 with
      | nil => simp at h; omega
      | cons d ds =>
        apply ih
        · simp at h ⊢; omega
        · simp
    · simp only [write_chunks, if_neg hi]

theorem compress_policy_some (policy : List ℚ) (hlen : policy.length ≤ 84) :
    compress_policy policy =
      some ((chunks_of 12 policy).map pack_chunk ++
        List.replicate (7 - (chunks_of 12 policy).length) 0) := by
  have hcl : (chunks_of 12 policy).length ≤ 7 := by
    rw [chunks_of_12_length policy.length policy le_rfl]
    omega
  show write_chunks (chunks_of 12 policy) 0 (List.replicate 7 0) = _
  rw [write_chunks_spec _ 0 _ (by simp; omega)]
  rw [List.take_zero, List.nil_append, Nat.zero_add, List.drop_replicate]

theorem decompress_policy_length (arr : List ℕ) :
    (decompress_policy arr).length = 12 * arr.length := by
  induction arr with
  | nil => rfl
  | cons w t ih =>
    show (unpack_word w ++ decompress_policy t).length = _
    rw [List.length_append, unpack_word_length, ih, List.length_cons]
    ring

theorem flat_quant_prefix : ∀ (k : ℕ) (l : List ℚ), l.length ≤ k →
    (∀ x ∈ l, compress x < 1000) →
    ∃ tail, (chunks_of 12 l).flatMap (fun c => unpack_word (pack_chunk c)) =
      l.map (fun v => decompress (compress v)) ++ tail := by
  intro k
  induction k with
  | zero =>
    intro l hl _
    have : l = [] := List.length_eq_zero.mp (by omega)
    subst this
    exact ⟨[], by simp [chunks_of_nil]⟩
  | succ m ih =>
    intro l hl hb
    by_cases hnil : l = []
    · subst hnil; exact ⟨[], by simp [chunks_of_nil]⟩
    · have hbt : ∀ x ∈ l.take 12, compress x < 1000 :=
        fun x hx => hb x (List.mem_of_mem_take hx)
      have htlen : (l.take 12).length ≤ 12 := by simp
      obtain ⟨tail2, htail2⟩ := ih (l.drop 12)
        (by simp [List.length_drop]; have := List.length_pos.mpr hnil; omega)
        (fun x hx => hb x (List.mem_of_mem_drop hx))
      by_cases hsplit : l.length ≤ 12
      · refine ⟨List.replicate (12 - l.length) 0, ?_⟩
        rw [chunks_of_cons12 l hnil]
        simp only [List.flatMap_cons]
        rw [unpack_word_pack (l.take 12) htlen hbt]
        have hdrop : l.drop 12 = [] := by
          rw [← List.length_eq_zero, List.length_drop]; omega
        rw [hdrop, chunks_of_nil, List.take_of_length_le hsplit]
        simp
      · refine ⟨tail2, ?_⟩
        rw [chunks_of_cons12 l hnil]
        simp only [List.flatMap_cons]
        rw [unpack_word_pack (l.take 12) htlen hbt, htail2]
        have htake12 : (l.take 12).length = 12 := by simp; omega
        rw [htake12]
        simp only [Nat.sub_self, List.replicate_zero, List.append_nil]
        rw [← List.append_assoc, ← List.map_append, List.take_append_drop]

/-- C9: `ARRAY_SIZE = ⌊90/12⌋ = 7` words of 12 entries each, so
`compress_policy` succeeds for every policy of length at most
`7·12 = 84` and panics with an out-of-bounds index for every longer
policy (in particular for lengths up to `MAX_POLICY_LENGTH = 90`), and
`decompress_policy` of a full array always returns exactly 84
entries. -/
theorem C9_compress_policy_bounds (policy : List ℚ) :
    ARRAY_SIZE = 7 ∧ MAX_FIT = 12 ∧
    (policy.length ≤ 84 → (compress_policy policy).isSome) ∧
    (84 < policy.length → compress_policy policy = none) ∧
    (∀ arr : List ℕ, arr.length = ARRAY_SIZE →
      (decompress_policy arr).length = 84) := by
  refine ⟨rfl, rfl, ?_, ?_, ?_⟩
  · intro hlen
    rw [compress_policy_some policy hlen]
    rfl
  · intro hlen
    have hne : chunks_of 12 policy ≠ [] := by
      intro hc
      have := chunks_of_12_length policy.length policy le_rfl
      rw [hc] at this
      simp at this
      omega
    show write_chunks (chunks_of 12 policy) 0 (List.replicate 7 0) = none
    apply write_chunks_fail _ 0 _ _ hne
    rw [chunks_of_12_length policy.length policy le_rfl]
    simp
    omega
  · intro arr harr
    rw [decompress_policy_length, harr, ARRAY_SIZE_eq]

/-- C9 witness: instantiations at a length-84 policy (success), a
length-85 policy (out-of-bounds failure) and the zero array. -/
theorem C9_compress_policy_bounds_witness :
    (compress_policy (List.replicate 84 0)).isSome ∧
    compress_policy (List.replicate 85 0) = none ∧
    (decompress_policy (List.replicate 7 0)).length = 84 :=
  ⟨(C9_compress_policy_bounds (List.replicate 84 0)).2.2.1 (by simp),
   (C9_compress_policy_bounds (List.replicate 85 0)).2.2.2.1 (by simp),
   (C9_compress_policy_bounds []).2.2.2.2 (List.replicate 7 0)
     (by simp [ARRAY_SIZE_eq])⟩

theorem quant_error (v : ℚ) (h0 : 0 ≤ v) (h1 : v ≤ 1) :
    |decompress (compress v) - v| ≤ 1/999 := by
  rw [decompress, compress]
  have hnn : (0:ℤ) ≤ ⌊v * 999⌋ := Int.floor_nonneg.mpr (by positivity)
  have hcast : (((⌊v * 999⌋).toNat : ℕ) : ℚ) = ((⌊v * 999⌋ : ℤ) : ℚ) := by
    exact_mod_cast congrArg Int.cast (Int.toNat_of_nonneg hnn)
  rw [hcast]
  have hle : ((⌊v * 999⌋ : ℤ) : ℚ) ≤ v * 999 := Int.floor_le _
  have hgt : v * 999 - 1 < ((⌊v * 999⌋ : ℤ) : ℚ) := Int.sub_one_lt_floor _
  rw [abs_le]
  constructor <;> nlinarith [hle, hgt]

/-- C6: for every policy of length 40 with entries in `[0,1]`,
compression quantizes each entry to `⌊v·999⌋ ∈ [0, 999]`, packs 12
entries per 128-bit word, and decompression recovers every entry of the
original policy within `1/999`. -/
theorem C6_blueprint_roundtrip_error (policy : List ℚ)
    (hlen : policy.length = 40)
    (hbound : ∀ x ∈ policy, 0 ≤ x ∧ x ≤ 1) :
    ∃ arr, compress_policy policy = some arr ∧
      ∀ i, i < policy.length →
        |(decompress_policy arr).getD i 0 - policy.getD i 0| ≤ 1/999 := by
  have hcb : ∀ x ∈ policy, compress x < 1000 :=
    fun x hx => compress_lt_1000 x (hbound x hx).1 (hbound x hx).2
  refine ⟨_, compress_policy_some policy (by omega), ?_⟩
  intro i hi
  obtain ⟨tail, htail⟩ :=
    flat_quant_prefix policy.length policy le_rfl hcb
  have hdec : decompress_policy
      ((chunks_of 12 policy).map pack_chunk ++
        List.replicate (7 - (chunks_of 12 policy).length) 0) =
      policy.map (fun v => decompress (compress v)) ++
        (tail ++ decompress_policy
          (List.replicate (7 - (chunks_of 12 policy).length) 0)) := by
    rw [decompress_policy, List.flatMap_append, List.flatMap_map, htail]
    rw [decompress_policy, List.append_assoc]
  rw [hdec]
  have hmi : i < (policy.map (fun v => decompress (compress v))).length := by
    simpa using hi
  have happ : ((policy.map (fun v => decompress (compress v)) ++
      (tail ++ decompress_policy
        (List.replicate (7 - (chunks_of 12 policy).length) 0)))).getD i 0 =
      (policy.map (fun v => decompress (compress v))).getD i 0 := by
    rw [List.getD_eq_getElem _ _ (by simp at hmi ⊢; omega),
      List.getD_eq_getElem _ _ hmi]
    exact List.getElem_append_left hmi
  rw [happ, List.getD_eq_getElem _ _ hmi, List.getElem_map,
    List.getD_eq_getElem _ _ hi]
  exact quant_error (policy[i]) (hbound _ (List.getElem_mem hi)).1
    (hbound _ (List.getElem_mem hi)).2

/-- C6 witness: the constant policy `1/2` of length 40. -/
theorem C6_blueprint_roundtrip_error_witness :
    ∃ arr, compress_policy (List.replicate 40 (1/2)) = some arr ∧
      ∀ i, i < (List.replicate 40 ((1:ℚ)/2)).length →
        |(decompress_policy arr).getD i 0 -
          (List.replicate 40 ((1:ℚ)/2)).getD i 0| ≤ 1/999 :=
  C6_blueprint_roundtrip_error (List.replicate 40 (1/2)) (by simp)
    (fun x hx => by
      have : x = 1/2 := List.eq_of_mem_replicate hx
      subst this
      norm_num)

/-! ### Claim C8 — marker nodes -/

/-- C8: at a `Marker` node, `run_averaging_iteration` plays the
marker's single action and recurses with the sampling probability `q`
unchanged; the strategy stores are handed to the child exactly as they
were received, so no regret delta and no strategy delta is written for
the marker node itself (the randomness state is also untouched). -/
theorem C8_marker_plays_through {σ : Type} (G : GameSpec σ) (e b t : ℚ)
    (fuel : ℕ) (s : σ) (updated_player depth : ℕ) (q : ℚ) (rng : Rng)
    (strats : List RegretStrategy) (a : ℕ)
    (hm : G.active_player s = .marker a) :
    run_averaging_iteration G e b t (fuel + 1) s updated_player depth q rng strats =
      run_averaging_iteration G e b t fuel (G.play s a) updated_player
        (depth + 1) q rng strats := by
  simp only [run_averaging_iteration, hm]

/-- C8 witness: the marker theorem applied to the concrete game
`demo_marker` at its root. -/
theorem C8_marker_plays_through_witness :
    run_averaging_iteration demo_marker (3/5) 100 10000 2 0 0 0 1
        ⟨[], []⟩ [RegretStrategy.default, RegretStrategy.default] =
      run_averaging_iteration demo_marker (3/5) 100 10000 1
        (demo_marker.play 0 7) 0 1 1 ⟨[], []⟩
        [RegretStrategy.default, RegretStrategy.default] :=
  C8_marker_plays_through demo_marker (3/5) 100 10000 1 0 0 0 1 ⟨[], []⟩
    [RegretStrategy.default, RegretStrategy.default] 7 rfl

/-! ### Claim C2 — the updated-player baseline -/

theorem sum_zip_mul_dropped (rd : List ℚ) :
    ∀ (v : List ℚ) (mask : List Bool) (b : ℚ),
    v.length = rd.length → mask.length = rd.length →
    (∀ p ∈ rd.zip mask, p.2 = false → p.1 = 0) →
    ((rd.zip (((v.map (fun a => a - b)).zip mask).map
        (fun p => if p.2 then p.1 else 0))).map (fun p => p.1 * p.2)).sum =
      ((v.zip rd).map (fun p => p.1 * p.2)).sum - b * rd.sum := by
  induction rd with
  | nil =>
    intro v mask b hv hm _
    have hv0 : v = [] := List.length_eq_zero.mp (by simpa using hv)
    subst hv0
    simp
  | cons r rd2 ih =>
    intro v mask b hv hm hsupp
    cases v with
    | nil => simp at hv
    | cons x v2 =>
      cases mask with
      | nil => simp at hm
      | cons m mask2 =>
        have hv2 : v2.length = rd2.length := by simpa using hv
        have hm2 : mask2.length = rd2.length := by simpa using hm
        have hsupp2 : ∀ p ∈ rd2.zip mask2, p.2 = false → p.1 = 0 :=
          fun p hp => hsupp p (List.mem_cons_of_mem _ hp)
        simp only [List.map_cons, List.zip_cons_cons, List.sum_cons]
        rw [ih v2 mask2 b hv2 hm2 hsupp2]
        cases m with
        | false =>
          have hr : r = 0 := hsupp (r, false) (List.mem_cons_self _ _) rfl
          subst hr
          simp
        | true =>
          simp
          ring

/-- C2 (amended): whenever the updated-player branch succeeds, the
value it returns is the baseline `∑ v[i]·regret_dist[i]` over the
per-action sampled returns `v`, and the regret delta written to the
store is `Δregret[i] = (v[i] − baseline) if mask[i] else 0`; the
identity `∑ regret_dist[i]·Δregret[i] = 0` holds whenever the regret
distribution is supported on the mask and sums to `1` (as produced by
the positive-sum branch of regret matching) — in the uniform fallback
case the regret distribution can put weight outside the mask and the
sum can be nonzero. -/
theorem C2_updated_branch_baseline
    (step : ℕ → ℚ → Rng → List RegretStrategy →
      Option (ℚ × List RegretStrategy × Rng))
    (e b t : ℚ) (pnum : ℕ) (q : ℚ) (M : ℕ) (mask : List Bool)
    (history : CondensedInfoSet) (regrets : List ℚ) (rng : Rng)
    (strats : List RegretStrategy) (value : ℚ)
    (strats2 : List RegretStrategy) (rng2 : Rng)
    (hrun : updated_player_branch step e b t pnum q M mask history regrets
      rng strats = some (value, strats2, rng2)) :
    (∃ (v : List ℚ) (strats_mid : List RegretStrategy)
        (strat3 : RegretStrategy),
      value = counter_factual_estimation v regrets ∧
      (strats_mid.getD pnum RegretStrategy.default).update history
        (some (dropped_non_actions v regrets mask)) none = some strat3 ∧
      strats2 = strats_mid.set pnum strat3) ∧
    (∀ v : List ℚ, v.length = regrets.length → mask.length = regrets.length →
      (∀ p ∈ regrets.zip mask, p.2 = false → p.1 = 0) →
      regrets.sum = 1 →
      ((regrets.zip (dropped_non_actions v regrets mask)).map
        (fun p => p.1 * p.2)).sum = 0) := by
  constructor
  · simp only [updated_player_branch] at hrun
    split at hrun
    · exact absurd hrun (by simp)
    · split at hrun
      · exact absurd hrun (by simp)
      · split at hrun
        · exact absurd hrun (by simp)
        · rename_i x1 x2 x3 x4 x5
          split at hrun
          · exact absurd hrun (by simp)
          · rename_i strat3 hupd
            simp only [Option.some.injEq, Prod.mk.injEq] at hrun
            obtain ⟨hval, hset, _⟩ := hrun
            exact ⟨x2, x3, strat3, hval.symm, hupd, hset.symm⟩
  · intro v hv hm hsupp hsum
    have key := sum_zip_mul_dropped regrets v mask
      (counter_factual_estimation v regrets) hv hm hsupp
    rw [dropped_non_actions, update_with_cfr, key, hsum,
      counter_factual_estimation]
    ring

/-- C2 counterexample: running an iteration of `demo_line` for the
updated player `0` visits the fresh information set `5`, where the
regret distribution is the uniform fallback `[1/2, 1/2]`
(`vec![1.0/length; length]`, which is not supported on the mask
`[true, false]`).  The branch samples the single legal action (return
`v = [1, 0]`), returns the baseline `1/2` and writes the regret delta
`Δregret = [1/2, 0]` into the empty store, and
`∑ regret_dist[i] · Δregret[i] = 1/4 ≠ 0`, contradicting the claimed
identity. -/
theorem C2_counterexample :
    ∃ res : ℚ × List RegretStrategy × Rng,
      run_averaging_iteration demo_line (3/5) 100 10000 2 0 0 0 1 ⟨[], [0]⟩
        [RegretStrategy.default, RegretStrategy.default] = some res ∧
      res.1 = 1/2 ∧
      (res.2.1.getD 0 RegretStrategy.default).regret_map 5 = some [1/2, 0] ∧
      ((([(1:ℚ)/2, 1/2]).zip [(1:ℚ)/2, 0]).map (fun p => p.1 * p.2)).sum ≠ 0 := by
  refine ⟨((1:ℚ)/2,
    [{ policy_map := fun k => if k = 5 then some [0, 0] else none,
       regret_map := fun k => if k = 5 then some [1/2, 0] else none },
     RegretStrategy.default], ⟨[], []⟩), ?_, rfl, ?_, ?_⟩
  · norm_num [run_averaging_iteration, demo_line, updated_player_branch,
      sample_loop, average_sampling, RegretStrategy.update,
      RegretStrategy.policy, RegretStrategy.regrets, RegretStrategy.default,
      next_unif, next_index, regret_matching, masked_positive,
      counter_factual_estimation, update_with_cfr, dropped_non_actions,
      add_assign_zip, List.replicate, List.range_succ]
  · simp
  · norm_num

/-- C2 witness: the amended theorem applied to a concrete successful
execution of the updated-player branch. -/
theorem C2_updated_branch_baseline_witness :
    (∃ (v : List ℚ) (strats_mid : List RegretStrategy)
        (strat3 : RegretStrategy),
      ((1:ℚ)/2) = counter_factual_estimation v [1/2, 1/2] ∧
      (strats_mid.getD 0 RegretStrategy.default).update 5
        (some (dropped_non_actions v [1/2, 1/2] [true, false])) none =
          some strat3 ∧
      ([{ policy_map := fun k => if k = 5 then some [0, 0] else none,
          regret_map := fun k => if k = 5 then some [1/2, 0] else none },
        RegretStrategy.default] : List RegretStrategy) =
        strats_mid.set 0 strat3) ∧
    (∀ v : List ℚ, v.length = ([(1:ℚ)/2, 1/2]).length →
      ([true, false] : List Bool).length = ([(1:ℚ)/2, 1/2]).length →
      (∀ p ∈ ([(1:ℚ)/2, 1/2]).zip [true, false], p.2 = false → p.1 = 0) →
      ([(1:ℚ)/2, 1/2]).sum = 1 →
      ((([(1:ℚ)/2, 1/2]).zip
        (dropped_non_actions v [1/2, 1/2] [true, false])).map
        (fun p => p.1 * p.2)).sum = 0) := by
  have hrun : updated_player_branch demo_step (3/5) 100 10000 0 1 2
      [true, false] 5 [1/2, 1/2] ⟨[], [0]⟩
      [RegretStrategy.default, RegretStrategy.default] =
      some ((1:ℚ)/2,
        [{ policy_map := fun k => if k = 5 then some [0, 0] else none,
           regret_map := fun k => if k = 5 then some [1/2, 0] else none },
         RegretStrategy.default], ⟨[], []⟩) := by
    norm_num [updated_player_branch, demo_step, sample_loop,
      average_sampling, RegretStrategy.update, RegretStrategy.policy,
      RegretStrategy.regrets, RegretStrategy.default, next_unif, next_index,
      counter_factual_estimation, update_with_cfr, dropped_non_actions,
      add_assign_zip, List.replicate]
  exact C2_updated_branch_baseline demo_step (3/5) 100 10000 0 1 2
    [true, false] 5 [1/2, 1/2] ⟨[], [0]⟩
    [RegretStrategy.default, RegretStrategy.default] _ _ _ hrun
